import Mathlib

/-!
Verification of the LION repository's ACR model (`LION/models/learned_regularizer/ACR.py`)
and Noise2Inverse solver (`LION/optimizers/Noise2Inverse_solver.py`) against its
natural-language specification.

The numeric embedding uses exact rationals.  Images and feature maps are functions
on `Fin`-indexed grids; `torch.nn.Conv2d` with `padding="same"`, `stride=1` is embedded
as an explicit cross-correlation with zero padding; `torch.clip(X, min=0)` is `max · 0`;
`LeakyReLU(0.2)` / `ReLU` are the two activation cases the Python constructor accepts
(anything else raises `ValueError`, hence the two-constructor inductive).
External collaborators (the CT forward / adjoint / FBP operators, `psnr`, and
`torch.nn.functional.softplus`) are modelled as parameters, as the spec treats them.
-/

namespace LION

set_option maxRecDepth 40000

/-- A single-channel image: `height × width` grid of rationals. -/
abbrev Img (h w : ℕ) := Fin h → Fin w → ℚ

/-- A multi-channel feature map, `c` channels of `h × w` images
(one sample of a `[c, h, w]` tensor). -/
abbrev FMap (c h w : ℕ) := Fin c → Img h w

/-- Zero-padded read of an image at integer coordinates: the value inside the grid,
`0` outside (the zero padding used by `nn.Conv2d(..., padding="same")`). -/
def at0 {h w : ℕ} (f : Img h w) (i j : ℤ) : ℚ :=
  if hb : 0 ≤ i ∧ i < (h : ℤ) ∧ 0 ≤ j ∧ j < (w : ℤ) then
    f ⟨i.toNat, by omega⟩ ⟨j.toNat, by omega⟩
  else 0

/-- The kernel-window part of a 2-D cross-correlation at output pixel `(i, j)`:
sum over input channels and kernel offsets, reading the input with zero padding.
The left padding is `(k - 1) / 2`, as PyTorch uses for `padding="same"`, `stride=1`. -/
def convSum {cin h w : ℕ} (k : ℕ) (Wrow : Fin cin → Fin k → Fin k → ℚ)
    (x : FMap cin h w) (i : Fin h) (j : Fin w) : ℚ :=
  ∑ q : Fin cin × Fin k × Fin k,
    Wrow q.1 q.2.1 q.2.2 *
      at0 (x q.1) (((i : ℕ) : ℤ) + ((q.2.1 : ℕ) : ℤ) - (((k - 1) / 2 : ℕ) : ℤ))
        (((j : ℕ) : ℤ) + ((q.2.2 : ℕ) : ℤ) - (((k - 1) / 2 : ℕ) : ℤ))

/-- `nn.Conv2d(cin, cout, kernel_size=k, stride=1, padding="same")` on one sample:
weight `W : [cout, cin, k, k]`, bias `b : [cout]` (pass the zero function for
`bias=False`). -/
def conv2d {cin cout h w : ℕ} (k : ℕ) (W : Fin cout → Fin cin → Fin k → Fin k → ℚ)
    (bias : Fin cout → ℚ) (x : FMap cin h w) : FMap cout h w :=
  fun o i j => bias o + convSum k (W o) x i j

/-- `Positive.forward` (ACR.py line 16-18): `torch.clip(X, min=0.0)`, element-wise on a
4-D weight tensor.  Registered as a parametrization, it intercepts every read of the
`blue` / `last_layer` weights, so the effective weight at every forward pass is this
clipped value. -/
def Positive {c1 c2 k : ℕ} (X : Fin c1 → Fin c2 → Fin k → Fin k → ℚ) :
    Fin c1 → Fin c2 → Fin k → Fin k → ℚ :=
  fun o ci a b => max (X o ci a b) 0

/-- The two activation types accepted by `ICNN_layer.__init__` / `ACR.__init__`;
any other `relu_type` string raises `ValueError`. -/
inductive ReluType where
  | LeakyReLU : ReluType
  | ReLU : ReluType

/-- `nn.LeakyReLU(negative_slope=slope)` on one scalar. -/
def leakyReLU (slope t : ℚ) : ℚ := if 0 ≤ t then t else slope * t

/-- The activation selected by `relu_type`: `LeakyReLU(negative_slope=0.2)` or `ReLU`. -/
def actOf : ReluType → ℚ → ℚ
  | ReluType.LeakyReLU => leakyReLU (1 / 5)
  | ReluType.ReLU => fun t => max t 0

/-- The negative-side slope of `actOf`: `0.2` for LeakyReLU, `0` for ReLU. -/
def negSlope : ReluType → ℚ
  | ReluType.LeakyReLU => 1 / 5
  | ReluType.ReLU => 0

/-- `ICNN_layer.forward` (ACR.py lines 55-58): `res = blue(z) + orange(x0)` followed by
the activation.  `blue` has no bias and its weight is read through the `Positive`
parametrization; `orange` has a bias and is unconstrained. -/
def ICNN_layer.forward {C k h w : ℕ} (relu : ReluType)
    (blueW : Fin C → Fin C → Fin k → Fin k → ℚ)
    (orangeW : Fin C → Fin 1 → Fin k → Fin k → ℚ) (orangeB : Fin C → ℚ)
    (z : FMap C h w) (x0 : FMap 1 h w) : FMap C h w :=
  fun c i j =>
    actOf relu (conv2d k (Positive blueW) (fun _ => 0) z c i j + conv2d k orangeW orangeB x0 c i j)

/-- The weights of an `ACR` instance with `channels = C` and `kernel_size = k`.
`blueW n`, `orangeW n`, `orangeB n` are the parameters of `ICNN_layer_{n}`;
`blueW` and `lastW` are the RAW parameters, read through `Positive` by the forward
pass (the parametrization registered in `__init__`). -/
structure ACRModel (C k : ℕ) where
  layers : ℕ
  relu : ReluType
  firstW : Fin C → Fin 1 → Fin k → Fin k → ℚ
  firstB : Fin C → ℚ
  blueW : ℕ → Fin C → Fin C → Fin k → Fin k → ℚ
  orangeW : ℕ → Fin C → Fin 1 → Fin k → Fin k → ℚ
  orangeB : ℕ → Fin C → ℚ
  lastW : Fin 1 → Fin C → Fin k → Fin k → ℚ

/-- The first stage of `ACR.forward`: `z = first_layer(x); z = first_activation(z)`. -/
def ACR.firstStage {C k h w : ℕ} (M : ACRModel C k) (x : FMap 1 h w) : FMap C h w :=
  fun c i j => actOf M.relu (conv2d k M.firstW M.firstB x c i j)

/-- The loop `for i in range(layers): z = ICNN_layer_i(z, x)` of `ACR.forward`:
`loopLayers M x n z` applies layers `0, …, n-1` in order to `z`, each also
receiving the original input `x` on its orange path. -/
def ACR.loopLayers {C k h w : ℕ} (M : ACRModel C k) (x : FMap 1 h w) :
    ℕ → FMap C h w → FMap C h w
  | 0, z => z
  | n + 1, z =>
    ICNN_layer.forward M.relu (M.blueW n) (M.orangeW n) (M.orangeB n)
      (ACR.loopLayers M x n z) x

/-- `nn.AdaptiveAvgPool2d((1, 1))` on a single-channel map followed by reading the
single output entry: the mean of all pixels. -/
def avgpool {h w : ℕ} (z : FMap 1 h w) : ℚ :=
  (∑ p : Fin h × Fin w, z 0 p.1 p.2) / ((h : ℚ) * (w : ℚ))

/-- `ACR.forward` (ACR.py lines 187-194): first conv + activation, the ICNN layer
stack, the positivity-constrained bias-free last conv, and the global average pool.
Returns the scalar regularizer value of one sample (the single entry of the
`[1, 1, 1]` output). -/
def ACR.forward {C k h w : ℕ} (M : ACRModel C k) (x : FMap 1 h w) : ℚ :=
  avgpool (conv2d k (Positive M.lastW) (fun _ => 0)
    (ACR.loopLayers M x M.layers (ACR.firstStage M x)))

/-- Convex combination of two feature maps with parameter `t` (pixel-wise
`t * x1 + (1 - t) * x2`). -/
def mix {c h w : ℕ} (t : ℚ) (x1 x2 : FMap c h w) : FMap c h w :=
  fun ch i j => t * x1 ch i j + (1 - t) * x2 ch i j

/-- Convexity of a scalar-valued function of a single-channel image, stated with the
explicit convex combination `mix`. -/
def cvxAt {h w : ℕ} (f : FMap 1 h w → ℚ) : Prop :=
  ∀ (x1 x2 : FMap 1 h w) (t : ℚ), 0 ≤ t → t ≤ 1 →
    f (mix t x1 x2) ≤ t * f x1 + (1 - t) * f x2

/-! ### ACR.reconstruction (ACR.py lines 211-246)

The variational solve is embedded over abstract spaces `V` (images) and `S`
(sinograms).  The external collaborators the method reads from `self`
(`fbp_op_mod`, `fwd_op_mod`, its adjoint, `self.psnr`, and the autograd gradient
of `self(x_0).sum()`), together with the configuration fields
(`param.var_step`, `param.var_momentum`, `params.earlystop`, `args.iterates`),
are collected in `ReconCfg`.  `gradR x` stands for the gradient that
`lossm.backward()` accumulates into `x_0.grad` (the gradient of
`self(x_0).sum()` at `x_0`). -/

/-- Collaborators and configuration of `ACR.reconstruction`. -/
structure ReconCfg (V S : Type) where
  fwd : V → S
  adj : S → V
  fbp : S → V
  gradR : V → V
  psnr : V → V → ℚ
  var_step : ℚ
  var_momentum : ℚ
  earlystop : Bool
  iterates : ℕ

/-- The mutable state of the reconstruction loop: the current estimate `x` (the
`x_0` parameter), its gradient buffer `gbuf` (`x_0.grad`, never zeroed by the loop),
the SGD momentum buffer, and the `prevpsn` / `curpsn` trackers. -/
structure RState (V : Type) where
  x : V
  gbuf : V
  mbuf : Option V
  prevpsn : ℚ
  curpsn : ℚ

/-- One `torch.optim.SGD` parameter update (dampening 0, no weight decay, no
Nesterov): with zero momentum the update is `x - lr • g`; otherwise the momentum
buffer is `g` on first use and `mom • buf + g` afterwards. -/
def sgdStep {V : Type} [AddCommGroup V] [Module ℚ V] (lr mom : ℚ) (x g : V)
    (mbuf : Option V) : V × Option V :=
  if mom = 0 then (x - lr • g, none)
  else
    match mbuf with
    | none => (x - lr • g, some g)
    | some b => (x - lr • (mom • b + g), some (mom • b + g))

/-- One pass of the body of the `for j in range(self.args.iterates)` loop after the
(optional) PSNR bookkeeping: `data_misfit = fwd(x_0) - y_0; grad = adj(data_misfit);
lossm = lambd * self(x_0).sum(); lossm.backward(); x_0.grad += grad;
optimizer.step()`.  The backward pass accumulates `gradR x` into the existing
gradient buffer (PyTorch never zeroes `x_0.grad` here), then the data term is added,
then SGD steps on the accumulated buffer. -/
def ACR.reconStep {V S : Type} [AddCommGroup V] [Module ℚ V] [Sub S]
    (cfg : ReconCfg V S) (y0 : S) (s : RState V) : RState V :=
  let grad := cfg.adj (cfg.fwd s.x - y0)
  let lambd : ℚ := 1
  let g2 := s.gbuf + lambd • cfg.gradR s.x + grad
  let step := sgdStep cfg.var_step cfg.var_momentum s.x g2 s.mbuf
  { x := step.1, gbuf := g2, mbuf := step.2, prevpsn := s.prevpsn, curpsn := s.curpsn }

/-- The reconstruction loop.  Returns the final state and the list of PSNR values
computed at the iterations that actually ran (empty when `x_t is None`).
When a reference `x_t` is supplied, each iteration first sets
`prevpsn = curpsn; curpsn = psnr(x_0, x_t)` and, if
`params.earlystop is True and curpsn < prevpsn`, returns `x_0` immediately
(no gradient step, no further iterations, no rollback). -/
def ACR.reconLoop {V S : Type} [AddCommGroup V] [Module ℚ V] [Sub S]
    (cfg : ReconCfg V S) (y0 : S) (xt : Option V) : ℕ → RState V → RState V × List ℚ
  | 0, s => (s, [])
  | n + 1, s =>
    match xt with
    | none => ACR.reconLoop cfg y0 none n (ACR.reconStep cfg y0 s)
    | some t =>
      let p := cfg.psnr s.x t
      let s1 : RState V := { s with prevpsn := s.curpsn, curpsn := p }
      if cfg.earlystop = true ∧ s1.curpsn < s1.prevpsn then (s1, [p])
      else
        ((ACR.reconLoop cfg y0 (some t) n (ACR.reconStep cfg y0 s1)).1,
          p :: (ACR.reconLoop cfg y0 (some t) n (ACR.reconStep cfg y0 s1)).2)

/-- The loop's initial state: `x_0 = fbp(y_0)`, an empty gradient buffer
(`x_0` is a fresh `nn.Parameter`, so its first `backward()` writes into a zero
buffer), no momentum buffer, `prevpsn = curpsn = 0`. -/
def ACR.reconInit {V S : Type} [AddCommGroup V] [Module ℚ V] [Sub S]
    (cfg : ReconCfg V S) (y0 : S) : RState V :=
  { x := cfg.fbp y0, gbuf := 0, mbuf := none, prevpsn := 0, curpsn := 0 }

/-- `ACR.reconstruction(y_0, x_t)`: run the loop for `iterates` iterations from the
FBP initialization and return the final estimate `x_0`. -/
def ACR.reconstruction {V S : Type} [AddCommGroup V] [Module ℚ V] [Sub S]
    (cfg : ReconCfg V S) (y0 : S) (xt : Option V) : V :=
  (ACR.reconLoop cfg y0 xt cfg.iterates (ACR.reconInit cfg y0)).1.x

/-- The sequence of PSNR values measured at the iterations of
`ACR.reconstruction(y_0, x_t)` that actually ran. -/
def ACR.reconTrace {V S : Type} [AddCommGroup V] [Module ℚ V] [Sub S]
    (cfg : ReconCfg V S) (y0 : S) (xt : Option V) : List ℚ :=
  (ACR.reconLoop cfg y0 xt cfg.iterates (ACR.reconInit cfg y0)).2

/-- The combined gradient contribution of one iteration at estimate `x`:
what `lossm.backward()` adds (`lambd = 1` times the regularizer gradient) plus the
data-consistency gradient `adj(fwd(x) - y0)` added by `x_0.grad += grad`. -/
def gradTerm {V S : Type} [AddCommGroup V] [Module ℚ V] [Sub S]
    (cfg : ReconCfg V S) (y0 : S) (x : V) : V :=
  (1 : ℚ) • cfg.gradR x + cfg.adj (cfg.fwd x - y0)

/-! ### Noise2Inverse_solver (Noise2Inverse_solver.py) -/

/-- The acquisition geometry, as far as `make_sub_operators` reads and writes it:
its (mutable) `angles` array. -/
structure Geometry (α : Type) where
  angles : List α
  deriving DecidableEq

/-- A forward projection operator. -/
structure Operator (α : Type) where
  angles : List α
  deriving DecidableEq

/-- Modelled from the spec: `ct.make_operator` (from `LION.CTtools.ct_utils`, which is
not under `src/`) "constructs a forward operator" from the geometry it is handed; the
claims only concern which angles each operator is built from, so the operator is
modelled as recording the geometry's angle list at construction time. -/
def make_operator {α : Type} (g : Geometry α) : Operator α := ⟨g.angles⟩

/-- Python slicing `l[start : -1 : step]` for `step ≥ 1`: the elements at indices
`start, start + step, start + 2·step, …` strictly below `len(l) - 1`, in order. -/
def pySliceNeg1 {α : Type} (l : List α) (start step : ℕ) : List α :=
  (List.range l.length).filterMap fun j =>
    if start ≤ j ∧ j < l.length - 1 ∧ (j - start) % step = 0 then l[j]? else none

/-- The body of `make_sub_operators` (Noise2Inverse_solver.py lines 64-71) with the
geometry mutation made explicit by state passing: for each split index `i` in the
list, `geo.angles = angles[i:-1:sino_splits]` is assigned and
`make_operator(geo)` is appended.  `angles` is the copy taken before the loop.
Returns the geometry as the loop leaves it, and the operator list. -/
def make_sub_operators_go {α : Type} (angles : List α) (K : ℕ) :
    Geometry α → List ℕ → Geometry α × List (Operator α)
  | g, [] => (g, [])
  | _, i :: rest =>
    ((make_sub_operators_go angles K { angles := pySliceNeg1 angles i K } rest).1,
      make_operator { angles := pySliceNeg1 angles i K } ::
        (make_sub_operators_go angles K { angles := pySliceNeg1 angles i K } rest).2)

/-- `Noise2Inverse_solver.make_sub_operators(geo, sino_splits)`: runs the loop over
`range(sino_splits)`.  The first component is the geometry object after the call
(the method does not undo its mutation); the second is the returned operator list. -/
def make_sub_operators {α : Type} (geo : Geometry α) (K : ℕ) :
    Geometry α × List (Operator α) :=
  make_sub_operators_go geo.angles K geo (List.range K)

/-- `np.delete(l, i)` for a 1-D array: remove the element at position `i`. -/
def npDelete {α : Type} (l : List α) (i : ℕ) : List α := l.take i ++ l.drop (i + 1)

/-- The split indices averaged into `label_array` for a sample whose drawn
`label = np.random.randint(sino_splits)`:
`np.delete(np.arange(sino_splits), label)` (Noise2Inverse_solver.py lines 99-103). -/
def labelIndices (K label : ℕ) : List ℕ := npDelete (List.range K) label

/-- One pixel of `label_array[sino]` in `mini_batch_step`:
`torch.mean(bad_recon[np.delete(indices, label), sino], axis=0)`, where
`bad : ℕ → ℚ` gives the corresponding pixel of `bad_recon[split, sino]` for each
split index.  `torch.mean` over the stacked axis divides by the number of stacked
reconstructions. -/
def label_array (bad : ℕ → ℚ) (K label : ℕ) : ℚ :=
  ((labelIndices K label).map bad).sum / ((labelIndices K label).length : ℚ)

/-- One pixel of `random_target[sino]`: `bad_recon[label, sino]`. -/
def random_target (bad : ℕ → ℚ) (label : ℕ) : ℚ := bad label

/-! ### L2net and SFB (ACR.py lines 63-121)

`torch.nn.functional.softplus` is an external library function; it is passed in as
`sp : ℚ → ℚ` (the claims do not depend on its values, only on where it multiplies). -/

/-- `L2net.forward` on one sample: `softplus(l2_penalty) * Σ (entries of x)²`
(`x.view(b, -1) ** 2` summed over dim 1). -/
def L2net.forward {h w : ℕ} (sp : ℚ → ℚ) (l2_penalty : ℚ) (x : FMap 1 h w) : ℚ :=
  sp l2_penalty * ∑ q : Fin 1 × Fin h × Fin w, (x q.1 q.2.1 q.2.2) ^ 2

/-- The configuration of `SFB` (`default_parameters`: `n_kernels = 10`,
`n_filters = 32`, `L2net = True`). -/
structure SFBParams where
  n_kernels : ℕ
  n_filters : ℕ
  L2net : Bool

/-- `SFB.default_parameters()`. -/
def SFB.default_parameters : SFBParams :=
  { n_kernels := 10, n_filters := 32, L2net := true }

/-- `SFB.forward`: `self.conv` is a `ModuleList` of `n_kernels` modules
`nn.Conv2d(1, n_filters, kernel_size=7, stride=1, padding=3, bias=False)`
(weights `W ki : [n_filters, 1, 7, 7]`).  The loop accumulates, for each kernel,
the per-sample sum of absolute values of all entries of its convolution response
(`x_out.view(b, -1).sum(dim=1)`); the total is multiplied by `softplus(penalty)`
and, when the `L2net` option is set, `L2net(x)` is added.  Output shape
`[batch, 1]` is modelled as `Fin B → Fin 1 → ℚ`. -/
def SFB.forward {B h w : ℕ} (sp : ℚ → ℚ) (p : SFBParams)
    (W : ℕ → Fin p.n_filters → Fin 1 → Fin 7 → Fin 7 → ℚ) (penalty l2_penalty : ℚ)
    (x : Fin B → FMap 1 h w) : Fin B → Fin 1 → ℚ :=
  fun bi _ =>
    sp penalty *
        (List.range p.n_kernels).foldl
          (fun acc ki =>
            acc + ∑ q : Fin p.n_filters × Fin h × Fin w,
              |conv2d 7 (W ki) (fun _ => 0) (x bi) q.1 q.2.1 q.2.2|) 0 +
      (if p.L2net then L2net.forward sp l2_penalty (x bi) else 0)

/-! ### Concrete instances used by witnesses and counterexamples -/

/-- A tiny concrete ACR model (`channels = kernel_size = layers = 1`), with a raw blue
weight that is negative so the `Positive` parametrization is exercised. -/
def acrMc : ACRModel 1 1 where
  layers := 1
  relu := ReluType.LeakyReLU
  firstW := fun _ _ _ _ => 1
  firstB := fun _ => 0
  blueW := fun _ _ _ _ _ => -1
  orangeW := fun _ _ _ _ _ => 1
  orangeB := fun _ _ => 0
  lastW := fun _ _ _ _ => 1

/-- A concrete 1×1 test image with value 2. -/
def xMc1 : FMap 1 1 1 := fun _ _ _ => 2

/-- A concrete 1×1 test image with value -2. -/
def xMc2 : FMap 1 1 1 := fun _ _ _ => -2

/-- A concrete reconstruction configuration (over `V = S = ℚ`) whose PSNR stand-in
strictly decreases along the run: `fwd`/`adj` contribute nothing, the regularizer
gradient is the constant 1, so `x` decreases by 1 each step, and `psnr x t = x`. -/
def cexCfg : ReconCfg ℚ ℚ where
  fwd := fun _ => 0
  adj := fun _ => 0
  fbp := fun y => y
  gradR := fun _ => 1
  psnr := fun x _ => x
  var_step := 1
  var_momentum := 0
  earlystop := true
  iterates := 3

/-- A concrete reconstruction configuration with `iterates = 0`. -/
def c5Cfg : ReconCfg ℚ ℚ where
  fwd := fun x => x
  adj := fun s => s
  fbp := fun y => y + 1
  gradR := fun _ => 1
  psnr := fun x t => x - t
  var_step := 1
  var_momentum := 0
  earlystop := true
  iterates := 0

/-- A concrete reconstruction configuration with early stopping enabled and
`psnr x t = x`. -/
def c6Cfg : ReconCfg ℚ ℚ where
  fwd := fun x => x
  adj := fun s => s
  fbp := fun y => y
  gradR := fun _ => 0
  psnr := fun x _ => x
  var_step := 1
  var_momentum := 0
  earlystop := true
  iterates := 5

/-- A concrete loop state whose stored `curpsn` (the previous iteration's metric)
is 5 while the metric of the current estimate is `c6Cfg.psnr 1 _ = 1`. -/
def s6 : RState ℚ :=
  { x := 1, gbuf := 0, mbuf := none, prevpsn := 0, curpsn := 5 }

/-- A concrete reconstruction configuration with zero momentum, for the gradient
accumulation witness. -/
def c8Cfg : ReconCfg ℚ ℚ where
  fwd := fun x => x
  adj := fun s => s
  fbp := fun y => y
  gradR := fun _ => 0
  psnr := fun _ _ => 0
  var_step := 1
  var_momentum := 0
  earlystop := false
  iterates := 1

/-- SFB configuration with one kernel module, two output filters, and no L2 term. -/
def sfbP2 : SFBParams := { n_kernels := 1, n_filters := 2, L2net := false }

/-- A kernel bank for `sfbP2` whose only nonzero entry sits in the SECOND output
channel (output-channel index 1), at the kernel center. -/
def sfbW2 : ℕ → Fin sfbP2.n_filters → Fin 1 → Fin 7 → Fin 7 → ℚ :=
  fun _ o _ a b => if o.val = 1 ∧ a.val = 3 ∧ b.val = 3 then 1 else 0

/-- The constant-1 batch of one 1×1 image. -/
def sfbX1 : Fin 1 → FMap 1 1 1 := fun _ _ _ _ => 1

/-! ## Theorems -/

/-! ### Activation facts -/

/-- Both accepted activations are the upper envelope of the two lines `u` and
`negSlope · u`. -/
lemma actOf_eq_max (r : ReluType) (u : ℚ) : actOf r u = max u (negSlope r * u) := by
  cases r
  · show leakyReLU (1 / 5) u = max u (1 / 5 * u)
    unfold leakyReLU
    rcases le_or_lt 0 u with hu | hu
    · rw [if_pos hu, max_eq_left (by linarith)]
    · rw [if_neg (not_le.mpr hu), max_eq_right (by linarith)]
  · show max u 0 = max u (0 * u)
    rw [zero_mul]

lemma negSlope_nonneg (r : ReluType) : 0 ≤ negSlope r := by
  cases r <;> norm_num [negSlope]

/-- The accepted activations are nondecreasing. -/
lemma actOf_mono (r : ReluType) {u v : ℚ} (huv : u ≤ v) : actOf r u ≤ actOf r v := by
  rw [actOf_eq_max, actOf_eq_max]
  exact max_le_max huv (mul_le_mul_of_nonneg_left huv (negSlope_nonneg r))

/-- The accepted activations are convex. -/
lemma actOf_convex (r : ReluType) (a b t : ℚ) (ht0 : 0 ≤ t) (ht1 : t ≤ 1) :
    actOf r (t * a + (1 - t) * b) ≤ t * actOf r a + (1 - t) * actOf r b := by
  rw [actOf_eq_max, actOf_eq_max, actOf_eq_max]
  have h1t : (0 : ℚ) ≤ 1 - t := by linarith
  apply max_le
  · exact add_le_add (mul_le_mul_of_nonneg_left (le_max_left _ _) ht0)
      (mul_le_mul_of_nonneg_left (le_max_left _ _) h1t)
  · have hs : negSlope r * (t * a + (1 - t) * b)
        = t * (negSlope r * a) + (1 - t) * (negSlope r * b) := by ring
    rw [hs]
    exact add_le_add (mul_le_mul_of_nonneg_left (le_max_right _ _) ht0)
      (mul_le_mul_of_nonneg_left (le_max_right _ _) h1t)

/-! ### Linearity and convexity of the convolution stages -/

/-- Zero-padded reads are linear in the image. -/
lemma at0_mix {c h w : ℕ} (t : ℚ) (x1 x2 : FMap c h w) (ch : Fin c) (I J : ℤ) :
    at0 (mix t x1 x2 ch) I J = t * at0 (x1 ch) I J + (1 - t) * at0 (x2 ch) I J := by
  by_cases hb : 0 ≤ I ∧ I < (h : ℤ) ∧ 0 ≤ J ∧ J < (w : ℤ)
  · simp only [at0, mix, dif_pos hb]
  · simp only [at0, dif_neg hb]; ring

/-- Zero-padded reads preserve pointwise convexity bounds. -/
lemma at0_le_comb {h w : ℕ} (Zm Z1 Z2 : Img h w) (t : ℚ)
    (hz : ∀ i j, Zm i j ≤ t * Z1 i j + (1 - t) * Z2 i j) (I J : ℤ) :
    at0 Zm I J ≤ t * at0 Z1 I J + (1 - t) * at0 Z2 I J := by
  by_cases hb : 0 ≤ I ∧ I < (h : ℤ) ∧ 0 ≤ J ∧ J < (w : ℤ)
  · simp only [at0, dif_pos hb]; exact hz _ _
  · simp only [at0, dif_neg hb]; simp

/-- The kernel window sum is linear in the input map. -/
lemma convSum_mix {cin h w : ℕ} (k : ℕ) (Wr : Fin cin → Fin k → Fin k → ℚ)
    (t : ℚ) (x1 x2 : FMap cin h w) (i : Fin h) (j : Fin w) :
    convSum k Wr (mix t x1 x2) i j
      = t * convSum k Wr x1 i j + (1 - t) * convSum k Wr x2 i j := by
  unfold convSum
  rw [Finset.mul_sum, Finset.mul_sum, ← Finset.sum_add_distrib]
  refine Finset.sum_congr rfl fun q _ => ?_
  rw [at0_mix]
  ring

/-- A convolution stage is affine in the input map: bias plus linear window sum. -/
lemma conv2d_mix {cin cout h w : ℕ} (k : ℕ) (W : Fin cout → Fin cin → Fin k → Fin k → ℚ)
    (bias : Fin cout → ℚ) (t : ℚ) (x1 x2 : FMap cin h w) (o : Fin cout) (i : Fin h)
    (j : Fin w) :
    conv2d k W bias (mix t x1 x2) o i j
      = t * conv2d k W bias x1 o i j + (1 - t) * conv2d k W bias x2 o i j := by
  unfold conv2d
  rw [convSum_mix]
  ring

/-- A kernel window sum with non-negative weights maps pointwise convexity bounds on
channel maps to a convexity bound on the output. -/
lemma convSum_le_comb {cin h w : ℕ} (k : ℕ) (Wr : Fin cin → Fin k → Fin k → ℚ)
    (hW : ∀ c a b, 0 ≤ Wr c a b) (Zm Z1 Z2 : FMap cin h w) (t : ℚ)
    (hz : ∀ c i j, Zm c i j ≤ t * Z1 c i j + (1 - t) * Z2 c i j) (i : Fin h)
    (j : Fin w) :
    convSum k Wr Zm i j ≤ t * convSum k Wr Z1 i j + (1 - t) * convSum k Wr Z2 i j := by
  unfold convSum
  rw [Finset.mul_sum, Finset.mul_sum, ← Finset.sum_add_distrib]
  refine Finset.sum_le_sum fun q _ => ?_
  refine le_trans (mul_le_mul_of_nonneg_left
    (at0_le_comb (Zm q.1) (Z1 q.1) (Z2 q.1) t (fun a b => hz q.1 a b) _ _)
    (hW q.1 q.2.1 q.2.2)) (le_of_eq (by ring))

/-- The effective (clipped) weights are non-negative entrywise. -/
lemma Positive_nonneg {c1 c2 k : ℕ} (X : Fin c1 → Fin c2 → Fin k → Fin k → ℚ)
    (o : Fin c1) (ci : Fin c2) (a b : Fin k) : 0 ≤ Positive X o ci a b :=
  le_max_right _ 0

/-- An ICNN layer preserves entrywise convexity of the running state in the original
input: the blue path is a non-negative combination of convex entries, the orange path
is affine in the input, and the activation is convex and nondecreasing. -/
lemma ICNN_layer_cvx {C k h w : ℕ} (relu : ReluType)
    (blueW : Fin C → Fin C → Fin k → Fin k → ℚ)
    (oW : Fin C → Fin 1 → Fin k → Fin k → ℚ) (oB : Fin C → ℚ)
    (Z : FMap 1 h w → FMap C h w) (hZ : ∀ c i j, cvxAt fun x => Z x c i j)
    (c : Fin C) (i : Fin h) (j : Fin w) :
    cvxAt fun x => ICNN_layer.forward relu blueW oW oB (Z x) x c i j := by
  intro x1 x2 t ht0 ht1
  simp only [ICNN_layer.forward]
  have hblue : conv2d k (Positive blueW) (fun _ => 0) (Z (mix t x1 x2)) c i j
      ≤ t * conv2d k (Positive blueW) (fun _ => 0) (Z x1) c i j
        + (1 - t) * conv2d k (Positive blueW) (fun _ => 0) (Z x2) c i j := by
    have hc := convSum_le_comb k (Positive blueW c)
      (fun cc a b => Positive_nonneg blueW c cc a b) (Z (mix t x1 x2)) (Z x1) (Z x2) t
      (fun cc a b => hZ cc a b x1 x2 t ht0 ht1) i j
    simpa [conv2d] using hc
  have horange := conv2d_mix k oW oB t x1 x2 c i j
  have hpre : conv2d k (Positive blueW) (fun _ => 0) (Z (mix t x1 x2)) c i j
        + conv2d k oW oB (mix t x1 x2) c i j
      ≤ t * (conv2d k (Positive blueW) (fun _ => 0) (Z x1) c i j
            + conv2d k oW oB x1 c i j)
        + (1 - t) * (conv2d k (Positive blueW) (fun _ => 0) (Z x2) c i j
            + conv2d k oW oB x2 c i j) := by
    refine le_trans (add_le_add_right hblue _) (le_of_eq ?_)
    rw [horange]
    ring
  exact le_trans (actOf_mono relu hpre) (actOf_convex relu _ _ t ht0 ht1)

/-- The first stage of `ACR.forward` is entrywise convex in the input. -/
lemma firstStage_cvx {C k h w : ℕ} (M : ACRModel C k) (c : Fin C) (i : Fin h)
    (j : Fin w) : cvxAt fun x : FMap 1 h w => ACR.firstStage M x c i j := by
  intro x1 x2 t ht0 ht1
  simp only [ACR.firstStage]
  rw [conv2d_mix]
  exact actOf_convex M.relu _ _ t ht0 ht1

/-- Every entry of the ICNN layer stack stays convex in the original input. -/
lemma loopLayers_cvx {C k h w : ℕ} (M : ACRModel C k) (n : ℕ) (c : Fin C) (i : Fin h)
    (j : Fin w) :
    cvxAt fun x : FMap 1 h w => ACR.loopLayers M x n (ACR.firstStage M x) c i j := by
  induction n generalizing c i j with
  | zero => exact firstStage_cvx M c i j
  | succ m ih =>
    exact ICNN_layer_cvx M.relu (M.blueW m) (M.orangeW m) (M.orangeB m)
      (fun x => ACR.loopLayers M x m (ACR.firstStage M x)) (fun c i j => ih c i j) c i j

/-- Division by a non-negative constant preserves order (the degenerate zero
denominator gives `0 ≤ 0`). -/
lemma div_le_div_nonneg_denom (a b c : ℚ) (hab : a ≤ b) (hc : 0 ≤ c) :
    a / c ≤ b / c := by
  rw [div_eq_mul_inv, div_eq_mul_inv]
  exact mul_le_mul_of_nonneg_right hab (inv_nonneg.mpr hc)

/-- Claim C1: for every ACR model whose activation is `LeakyReLU(0.2)` or `ReLU`
(the only two the constructor accepts) the forward map `R = ACR.forward` is convex
in its input image: `R(t·x1 + (1-t)·x2) ≤ t·R(x1) + (1-t)·R(x2)` for all `t ∈ [0,1]`,
in exact arithmetic.  The effective blue-path and final-layer weights are
non-negative for EVERY raw parameter value, because the forward pass reads them
through the `Positive` clip (`Positive_nonneg`), so the claim's weight hypothesis
holds for every model and the statement is unconditional in the weights. -/
theorem acr_forward_convex {C k h w : ℕ} (M : ACRModel C k) (x1 x2 : FMap 1 h w)
    (t : ℚ) (ht0 : 0 ≤ t) (ht1 : t ≤ 1) :
    ACR.forward M (mix t x1 x2) ≤ t * ACR.forward M x1 + (1 - t) * ACR.forward M x2 := by
  unfold ACR.forward avgpool
  have hfin : ∀ p : Fin h × Fin w,
      conv2d k (Positive M.lastW) (fun _ => 0)
          (ACR.loopLayers M (mix t x1 x2) M.layers (ACR.firstStage M (mix t x1 x2)))
          0 p.1 p.2
        ≤ t * conv2d k (Positive M.lastW) (fun _ => 0)
              (ACR.loopLayers M x1 M.layers (ACR.firstStage M x1)) 0 p.1 p.2
          + (1 - t) * conv2d k (Positive M.lastW) (fun _ => 0)
              (ACR.loopLayers M x2 M.layers (ACR.firstStage M x2)) 0 p.1 p.2 := by
    intro p
    have hc := convSum_le_comb k (Positive M.lastW 0)
      (fun cc a b => Positive_nonneg M.lastW 0 cc a b)
      (ACR.loopLayers M (mix t x1 x2) M.layers (ACR.firstStage M (mix t x1 x2)))
      (ACR.loopLayers M x1 M.layers (ACR.firstStage M x1))
      (ACR.loopLayers M x2 M.layers (ACR.firstStage M x2)) t
      (fun cc i j => loopLayers_cvx M M.layers cc i j x1 x2 t ht0 ht1) p.1 p.2
    simpa [conv2d] using hc
  have hsum : (∑ p : Fin h × Fin w,
        conv2d k (Positive M.lastW) (fun _ => 0)
          (ACR.loopLayers M (mix t x1 x2) M.layers (ACR.firstStage M (mix t x1 x2)))
          0 p.1 p.2)
      ≤ t * (∑ p : Fin h × Fin w,
            conv2d k (Positive M.lastW) (fun _ => 0)
              (ACR.loopLayers M x1 M.layers (ACR.firstStage M x1)) 0 p.1 p.2)
        + (1 - t) * (∑ p : Fin h × Fin w,
            conv2d k (Positive M.lastW) (fun _ => 0)
              (ACR.loopLayers M x2 M.layers (ACR.firstStage M x2)) 0 p.1 p.2) := by
    rw [Finset.mul_sum, Finset.mul_sum, ← Finset.sum_add_distrib]
    exact Finset.sum_le_sum fun p _ => hfin p
  refine le_trans (div_le_div_nonneg_denom _ _ _ hsum ?_) (le_of_eq (by ring))
  exact mul_nonneg (Nat.cast_nonneg h) (Nat.cast_nonneg w)

/-- Concrete instantiation of `acr_forward_convex` at a small model (with a negative
raw blue weight) and `t = 1/2`, discharging the hypotheses `0 ≤ t ≤ 1`. -/
theorem acr_forward_convex_witness :
    (0 : ℚ) ≤ 1 / 2 ∧ (1 / 2 : ℚ) ≤ 1 ∧
      ACR.forward acrMc (mix (1 / 2) xMc1 xMc2)
        ≤ 1 / 2 * ACR.forward acrMc xMc1 + (1 - 1 / 2) * ACR.forward acrMc xMc2 :=
  ⟨by norm_num, by norm_num,
    acr_forward_convex acrMc xMc1 xMc2 (1 / 2) (by norm_num) (by norm_num)⟩

/-- Clipping is idempotent: re-clipping an already clipped weight changes nothing. -/
lemma Positive_idem {c1 c2 k : ℕ} (X : Fin c1 → Fin c2 → Fin k → Fin k → ℚ) :
    Positive (Positive X) = Positive X := by
  funext o ci a b
  simp [Positive, max_assoc]

/-- An ICNN layer reads its raw blue weight only through `Positive`, so pre-clipping
the raw weight does not change the layer. -/
lemma ICNN_layer_forward_clip {C k h w : ℕ} (relu : ReluType)
    (blueW : Fin C → Fin C → Fin k → Fin k → ℚ)
    (oW : Fin C → Fin 1 → Fin k → Fin k → ℚ) (oB : Fin C → ℚ)
    (z : FMap C h w) (x0 : FMap 1 h w) :
    ICNN_layer.forward relu (Positive blueW) oW oB z x0
      = ICNN_layer.forward relu blueW oW oB z x0 := by
  unfold ICNN_layer.forward
  rw [Positive_idem]

/-- The ICNN layer stack only reads the raw blue weights through `Positive`, so
pre-clipping them does not change any forward pass. -/
lemma loopLayers_clip_invariant {C k h w : ℕ} (M : ACRModel C k) (x : FMap 1 h w) :
    ∀ (n : ℕ) (z : FMap C h w),
      ACR.loopLayers
          { M with blueW := fun m => Positive (M.blueW m), lastW := Positive M.lastW }
          x n z
        = ACR.loopLayers M x n z := by
  intro n
  induction n with
  | zero => intro z; rfl
  | succ m ih =>
    intro z
    show ICNN_layer.forward M.relu (Positive (M.blueW m)) (M.orangeW m) (M.orangeB m) _ x
      = ICNN_layer.forward M.relu (M.blueW m) (M.orangeW m) (M.orangeB m) _ x
    rw [ih, ICNN_layer_forward_clip]

/-- Claim C2: for every raw weight tensor value, including values with negative
entries, the effective (post-parametrization) weight used by the blue convolutions
and by ACR's final convolution is the element-wise clip of the raw tensor to
minimum 0 (`if · < 0 then 0 else ·`); it has no negative entries; and since
`ACR.forward` reads the raw tensors only through `Positive`, replacing the raw
tensors by their clipped values leaves every forward pass unchanged — the
non-negative clipped value is what every forward pass uses, not only
initialization. -/
theorem positive_param_clip {c1 c2 kk : ℕ} (X : Fin c1 → Fin c2 → Fin kk → Fin kk → ℚ)
    (o : Fin c1) (ci : Fin c2) (a b : Fin kk) {C k h w : ℕ} (M : ACRModel C k)
    (x : FMap 1 h w) :
    Positive X o ci a b = (if X o ci a b < 0 then 0 else X o ci a b) ∧
    0 ≤ Positive X o ci a b ∧
    ACR.forward M x
      = ACR.forward
          { M with blueW := fun n => Positive (M.blueW n), lastW := Positive M.lastW }
          x := by
  refine ⟨?_, Positive_nonneg X o ci a b, ?_⟩
  · by_cases hx : X o ci a b < 0
    · rw [if_pos hx]
      exact max_eq_right hx.le
    · rw [if_neg hx]
      exact max_eq_left (not_lt.mp hx)
  · show ACR.forward M x
      = avgpool (conv2d k (Positive (Positive M.lastW)) (fun _ => 0)
          (ACR.loopLayers
            { M with blueW := fun n => Positive (M.blueW n), lastW := Positive M.lastW }
            x M.layers (ACR.firstStage M x)))
    rw [Positive_idem, loopLayers_clip_invariant]
    rfl

/-- Sum of a mapped `List.range` as a `Finset.range` sum. -/
lemma list_range_map_sum (f : ℕ → ℚ) (n : ℕ) :
    ((List.range n).map f).sum = ∑ i ∈ Finset.range n, f i := by
  induction n with
  | zero => rfl
  | succ m ih =>
    rw [List.range_succ, List.map_append, List.sum_append, Finset.sum_range_succ, ih]
    simp

/-- Every element of `(List.range K).drop m` is at least `m`. -/
lemma mem_drop_range_le (K m : ℕ) : ∀ x ∈ (List.range K).drop m, m ≤ x := by
  intro x hx
  obtain ⟨i, hi, hget⟩ := List.mem_iff_getElem.mp hx
  rw [List.getElem_drop] at hget
  rw [List.getElem_range] at hget
  omega

/-- The sum over the indices kept by `np.delete(np.arange K, label)` is the full sum
minus the deleted entry. -/
lemma labelIndices_map_sum (K label : ℕ) (bad : ℕ → ℚ) (hlt : label < K) :
    ((labelIndices K label).map bad).sum
      = (∑ i ∈ Finset.range K, bad i) - bad label := by
  have hsplit : ((List.range K).map bad).sum
      = (((List.range K).take label).map bad).sum
        + (((List.range K).drop label).map bad).sum := by
    rw [← List.sum_append, ← List.map_append, List.take_append_drop]
  have hlen : label < (List.range K).length := by
    rw [List.length_range]; exact hlt
  have hdrop : (List.range K).drop label = label :: (List.range K).drop (label + 1) := by
    rw [List.drop_eq_getElem_cons hlen, List.getElem_range]
  unfold labelIndices npDelete
  rw [List.map_append, List.sum_append]
  rw [hdrop] at hsplit
  simp only [List.map_cons, List.sum_cons] at hsplit
  rw [list_range_map_sum] at hsplit
  linarith [hsplit]

/-- Claim C3: in `mini_batch_step`, for every sample with drawn split index
`label = random_target` index and `label < K` (as `np.random.randint(K)` guarantees),
the split `label` is excluded from the indices averaged into `label_array`; exactly
the other `K - 1` splits are averaged; and `label_array` equals the mean of the other
`K - 1` sub-reconstructions (pixel-wise, `bad` being any pixel of the stacked
`bad_recon`). -/
theorem mini_batch_label_self_exclusion (K label : ℕ) (bad : ℕ → ℚ)
    (hlt : label < K) :
    label ∉ labelIndices K label ∧
    (labelIndices K label).length = K - 1 ∧
    label_array bad K label
      = (∑ i ∈ (Finset.range K).erase label, bad i) / (((K : ℚ)) - 1) := by
  have htake : (List.range K).take label = List.range label := by
    rw [List.take_range, min_eq_left hlt.le]
  have hlen : (labelIndices K label).length = K - 1 := by
    unfold labelIndices npDelete
    rw [List.length_append, List.length_take, List.length_drop, List.length_range]
    omega
  refine ⟨?_, hlen, ?_⟩
  · intro hmem
    rcases List.mem_append.mp hmem with hmem | hmem
    · rw [htake] at hmem
      exact absurd (List.mem_range.mp hmem) (lt_irrefl label)
    · have := mem_drop_range_le K (label + 1) label hmem
      omega
  · have herase : ∑ i ∈ (Finset.range K).erase label, bad i
        = (∑ i ∈ Finset.range K, bad i) - bad label := by
      have := Finset.sum_erase_add (Finset.range K) bad (Finset.mem_range.mpr hlt)
      linarith [this]
    unfold label_array
    rw [labelIndices_map_sum K label bad hlt, hlen, herase,
      Nat.cast_sub (by omega : 1 ≤ K)]
    norm_num

/-- Concrete instantiation of `mini_batch_label_self_exclusion` at `K = 4`,
`label = 2`, discharging the hypothesis `label < K`. -/
theorem mini_batch_label_self_exclusion_witness :
    2 < 4 ∧
      (2 ∉ labelIndices 4 2 ∧
        (labelIndices 4 2).length = 4 - 1 ∧
        label_array (fun i => (i : ℚ)) 4 2
          = (∑ i ∈ (Finset.range 4).erase 2, ((i : ℚ))) / ((((4 : ℕ) : ℚ)) - 1)) :=
  ⟨by decide, mini_batch_label_self_exclusion 4 2 (fun i => (i : ℚ)) (by decide)⟩

/-! ### make_sub_operators -/

/-- The operator list built by the loop: one operator per split index, recording the
slice `angles[i:-1:K]` assigned to the geometry just before `make_operator` is
called. -/
lemma make_sub_operators_go_snd {α : Type} (angles : List α) (K : ℕ)
    (g : Geometry α) (l : List ℕ) :
    (make_sub_operators_go angles K g l).2
      = l.map fun i => make_operator { angles := pySliceNeg1 angles i K } := by
  induction l generalizing g with
  | nil => rfl
  | cons i rest ih =>
    simp [make_sub_operators_go, ih]

/-- After processing `l ++ [i]`, the geometry holds the slice of the last index. -/
lemma make_sub_operators_go_fst_append {α : Type} (angles : List α) (K i : ℕ) :
    ∀ (l : List ℕ) (g : Geometry α),
      (make_sub_operators_go angles K g (l ++ [i])).1
        = { angles := pySliceNeg1 angles i K } := by
  intro l
  induction l with
  | nil => intro g; rfl
  | cons a l2 ih =>
    intro g
    simpa [make_sub_operators_go] using ih { angles := pySliceNeg1 angles a K }

/-- Claim C4, amended: `make_sub_operators(geo, K)` returns exactly `K` operators and
the `i`-th is built from the Python slice `geo.angles[i : len(angles) - 1 : K]`
(every `K`-th angle starting at offset `i`, exclusive upper bound `len - 1`); for a
geometry with 360 angles and `K = 4` the four operators cover 90, 90, 90 and 89
angles respectively (NOT 90 each: the `-1` bound drops angle index 359, which the
offset-3 split would otherwise contain). -/
theorem make_sub_operators_spec {α : Type} (geo : Geometry α) (K i : ℕ) (hi : i < K) :
    (make_sub_operators geo K).2.length = K ∧
    (make_sub_operators geo K).2[i]?
      = some (make_operator { angles := pySliceNeg1 geo.angles i K }) ∧
    ((make_sub_operators ({ angles := List.range 360 } : Geometry ℕ) 4).2.map
        fun o => o.angles.length)
      = [90, 90, 90, 89] := by
  refine ⟨?_, ?_, ?_⟩
  · rw [make_sub_operators, make_sub_operators_go_snd, List.length_map,
      List.length_range]
  · rw [make_sub_operators, make_sub_operators_go_snd, List.getElem?_map,
      List.getElem?_range hi]
    rfl
  · decide

/-- Concrete instantiation of `make_sub_operators_spec` at a 5-angle geometry,
`K = 2`, `i = 1`, discharging the hypothesis `i < K`. -/
theorem make_sub_operators_spec_witness :
    1 < 2 ∧
      ((make_sub_operators ({ angles := List.range 5 } : Geometry ℕ) 2).2.length = 2 ∧
        (make_sub_operators ({ angles := List.range 5 } : Geometry ℕ) 2).2[1]?
          = some (make_operator { angles := pySliceNeg1 (List.range 5) 1 2 }) ∧
        ((make_sub_operators ({ angles := List.range 360 } : Geometry ℕ) 4).2.map
            fun o => o.angles.length)
          = [90, 90, 90, 89]) :=
  ⟨by decide, make_sub_operators_spec { angles := List.range 5 } 2 1 (by decide)⟩

/-- Counterexample to claim C4 as stated: with 360 angles and `K = 4` the operators
do NOT each cover 90 angles — the operator built from offset 3 covers only 89,
because the slice `angles[3:-1:4]` excludes index 359. -/
theorem make_sub_operators_not_all_90 :
    ((make_sub_operators ({ angles := List.range 360 } : Geometry ℕ) 4).2.map
        fun o => o.angles.length)
      = [90, 90, 90, 89] ∧
    ([90, 90, 90, 89] : List ℕ) ≠ List.replicate 4 90 :=
  ⟨by decide, by decide⟩

/-- Claim C9: `make_sub_operators` overwrites the shared geometry's `angles` field
while building the sub-operators and does not restore it: the geometry it leaves
behind holds the LAST assigned slice `angles[K-1 : len-1 : K]`; in particular, after
constructing with a 360-angle geometry and `K = 4` the geometry's angles no longer
equal their pre-construction value. -/
theorem make_sub_operators_mutates_geometry {α : Type} (geo : Geometry α) (K : ℕ)
    (hK : 1 ≤ K) :
    (make_sub_operators geo K).1 = { angles := pySliceNeg1 geo.angles (K - 1) K } ∧
    (make_sub_operators ({ angles := List.range 360 } : Geometry ℕ) 4).1.angles
      ≠ List.range 360 := by
  constructor
  · rw [make_sub_operators, show K = (K - 1) + 1 by omega, List.range_succ]
    exact make_sub_operators_go_fst_append geo.angles ((K - 1) + 1) (K - 1)
      (List.range (K - 1)) geo
  · decide

/-- Concrete instantiation of `make_sub_operators_mutates_geometry` at a 6-angle
geometry and `K = 2`, discharging the hypothesis `1 ≤ K`. -/
theorem make_sub_operators_mutates_geometry_witness :
    1 ≤ 2 ∧
      ((make_sub_operators ({ angles := List.range 6 } : Geometry ℕ) 2).1
          = { angles := pySliceNeg1 (List.range 6) (2 - 1) 2 } ∧
        (make_sub_operators ({ angles := List.range 360 } : Geometry ℕ) 4).1.angles
          ≠ List.range 360) :=
  ⟨by decide, make_sub_operators_mutates_geometry { angles := List.range 6 } 2 (by decide)⟩

/-! ### ACR.reconstruction -/

/-- Unfolding of a loop iteration that passes the early-stop check (or has it
disabled): the PSNR is recorded and the gradient step is taken. -/
lemma reconLoop_some_step {V S : Type} [AddCommGroup V] [Module ℚ V] [Sub S]
    (cfg : ReconCfg V S) (y0 : S) (t : V) (s : RState V) (n : ℕ)
    (hno : ¬(cfg.earlystop = true ∧ cfg.psnr s.x t < s.curpsn)) :
    ACR.reconLoop cfg y0 (some t) (n + 1) s
      = ((ACR.reconLoop cfg y0 (some t) n (ACR.reconStep cfg y0
            { s with prevpsn := s.curpsn, curpsn := cfg.psnr s.x t })).1,
         cfg.psnr s.x t :: (ACR.reconLoop cfg y0 (some t) n (ACR.reconStep cfg y0
            { s with prevpsn := s.curpsn, curpsn := cfg.psnr s.x t })).2) := by
  simp only [ACR.reconLoop]
  rw [if_neg hno]

/-- Unfolding of a loop iteration that triggers the early stop: the loop returns the
current estimate immediately. -/
lemma reconLoop_some_early {V S : Type} [AddCommGroup V] [Module ℚ V] [Sub S]
    (cfg : ReconCfg V S) (y0 : S) (t : V) (s : RState V) (n : ℕ)
    (hyes : cfg.earlystop = true ∧ cfg.psnr s.x t < s.curpsn) :
    ACR.reconLoop cfg y0 (some t) (n + 1) s
      = ({ s with prevpsn := s.curpsn, curpsn := cfg.psnr s.x t },
         [cfg.psnr s.x t]) := by
  simp only [ACR.reconLoop]
  rw [if_pos hyes]

/-- Claim C5: with `iterates = 0`, `reconstruction(y0, x_t=None)` takes no gradient
step and returns exactly the initial fast reconstruction `fbp(y0)`. -/
theorem recon_zero_iterates {V S : Type} [AddCommGroup V] [Module ℚ V] [Sub S]
    (cfg : ReconCfg V S) (y0 : S) (h0 : cfg.iterates = 0) :
    ACR.reconstruction cfg y0 none = cfg.fbp y0 := by
  unfold ACR.reconstruction
  rw [h0]
  rfl

/-- Concrete instantiation of `recon_zero_iterates` at `c5Cfg` (`iterates = 0`). -/
theorem recon_zero_iterates_witness :
    c5Cfg.iterates = 0 ∧ ACR.reconstruction c5Cfg 7 none = c5Cfg.fbp 7 :=
  ⟨rfl, recon_zero_iterates c5Cfg 7 rfl⟩

/-- Claim C6: with a reference supplied and early stopping enabled, an iteration
whose measured PSNR (`cfg.psnr s.x t`) is below the previous iteration's value
(`s.curpsn`) terminates immediately: the loop returns the CURRENT (post-decrease)
estimate `s.x`, takes no further gradient step and runs no further iteration (the
returned trace records only this final measurement) — there is no rollback to the
previous, better iterate. -/
theorem recon_earlystop_returns_current {V S : Type} [AddCommGroup V] [Module ℚ V]
    [Sub S] (cfg : ReconCfg V S) (y0 : S) (t : V) (s : RState V) (n : ℕ)
    (hes : cfg.earlystop = true) (hdec : cfg.psnr s.x t < s.curpsn) :
    (ACR.reconLoop cfg y0 (some t) (n + 1) s).1.x = s.x ∧
    (ACR.reconLoop cfg y0 (some t) (n + 1) s).2 = [cfg.psnr s.x t] := by
  rw [reconLoop_some_early cfg y0 t s n ⟨hes, hdec⟩]
  exact ⟨rfl, rfl⟩

/-- Concrete instantiation of `recon_earlystop_returns_current` at `c6Cfg` and a
state recording a previous PSNR of 5 while the current estimate measures 1. -/
theorem recon_earlystop_returns_current_witness :
    c6Cfg.earlystop = true ∧ c6Cfg.psnr s6.x 0 < s6.curpsn ∧
      ((ACR.reconLoop c6Cfg 0 (some 0) (2 + 1) s6).1.x = s6.x ∧
        (ACR.reconLoop c6Cfg 0 (some 0) (2 + 1) s6).2 = [c6Cfg.psnr s6.x 0]) :=
  ⟨rfl, by norm_num [c6Cfg, s6],
    recon_earlystop_returns_current c6Cfg 0 0 s6 2 rfl (by norm_num [c6Cfg, s6])⟩

/-- Invariant behind the amended claim C7: with early stopping enabled, prepending
the state's stored `curpsn` to the PSNR trace of the remaining iterations gives a
list that is non-decreasing except possibly at its final entry. -/
lemma recon_trace_aux {V S : Type} [AddCommGroup V] [Module ℚ V] [Sub S]
    (cfg : ReconCfg V S) (y0 : S) (t : V) (hes : cfg.earlystop = true) :
    ∀ (n : ℕ) (s : RState V),
      List.Chain' (· ≤ ·)
        ((s.curpsn :: (ACR.reconLoop cfg y0 (some t) n s).2).dropLast) := by
  intro n
  induction n with
  | zero =>
    intro s
    simp [ACR.reconLoop]
  | succ m ih =>
    intro s
    by_cases hd : cfg.psnr s.x t < s.curpsn
    · rw [reconLoop_some_early cfg y0 t s m ⟨hes, hd⟩]
      simp [List.dropLast]
    · have hle : s.curpsn ≤ cfg.psnr s.x t := not_lt.mp hd
      rw [reconLoop_some_step cfg y0 t s m (fun hc => hd hc.2)]
      have hIH := ih (ACR.reconStep cfg y0
        { s with prevpsn := s.curpsn, curpsn := cfg.psnr s.x t })
      have hcur : (ACR.reconStep cfg y0
          { s with prevpsn := s.curpsn, curpsn := cfg.psnr s.x t }).curpsn
          = cfg.psnr s.x t := rfl
      rw [hcur] at hIH
      rcases hT : (ACR.reconLoop cfg y0 (some t) m (ACR.reconStep cfg y0
          { s with prevpsn := s.curpsn, curpsn := cfg.psnr s.x t })).2
        with _ | ⟨q, T2⟩
      · simp [List.dropLast]
      · rw [hT] at hIH
        have hexp : (s.curpsn :: cfg.psnr s.x t :: q :: T2).dropLast
            = s.curpsn :: (cfg.psnr s.x t :: q :: T2).dropLast := rfl
        have hexp2 : (cfg.psnr s.x t :: q :: T2).dropLast
            = cfg.psnr s.x t :: (q :: T2).dropLast := rfl
        rw [hexp, hexp2]
        rw [hexp2] at hIH
        exact List.chain'_cons.mpr ⟨hle, hIH⟩

/-- Claim C7, amended: when early stopping is enabled and a reference is supplied,
the PSNR values measured at the iterates actually performed are non-decreasing
EXCEPT possibly at the final measurement — the iterate that triggers the stop
records a strict decrease, and the loop returns that post-decrease estimate
(see `recon_psnr_trace_decreases_cex`); every earlier consecutive pair is
non-decreasing, because a decrease would have stopped the loop there. -/
theorem recon_psnr_nondecreasing_amended {V S : Type} [AddCommGroup V] [Module ℚ V]
    [Sub S] (cfg : ReconCfg V S) (y0 : S) (t : V) (hes : cfg.earlystop = true) :
    List.Chain' (· ≤ ·) (ACR.reconTrace cfg y0 (some t)).dropLast := by
  have h := recon_trace_aux cfg y0 t hes cfg.iterates (ACR.reconInit cfg y0)
  unfold ACR.reconTrace
  rcases hT : (ACR.reconLoop cfg y0 (some t) cfg.iterates (ACR.reconInit cfg y0)).2
    with _ | ⟨q, T2⟩
  · simp
  · rw [hT] at h
    rcases T2 with _ | ⟨q2, T3⟩
    · simp [List.dropLast]
    · have hexp : ((ACR.reconInit cfg y0 : RState V).curpsn :: q :: q2 :: T3).dropLast
          = (ACR.reconInit cfg y0 : RState V).curpsn :: (q :: q2 :: T3).dropLast := rfl
      rw [hexp] at h
      exact (List.chain'_cons'.mp h).2

/-- Concrete instantiation of `recon_psnr_nondecreasing_amended` at `cexCfg`,
discharging the hypothesis that early stopping is enabled. -/
theorem recon_psnr_nondecreasing_amended_witness :
    cexCfg.earlystop = true ∧
      List.Chain' (· ≤ ·) (ACR.reconTrace cexCfg 10 (some 0)).dropLast :=
  ⟨rfl, recon_psnr_nondecreasing_amended cexCfg 10 0 rfl⟩

/-- Counterexample to claim C7 as stated: a run of `reconstruction` (configuration
`cexCfg`, early stopping enabled, reference supplied) whose measured PSNR sequence
over the iterates actually performed is `[10, 9]` — strictly DECREASING at the
final, early-stopping iterate, whose post-decrease estimate is returned.  The
quality metric is therefore not non-decreasing over the performed iterates. -/
theorem recon_psnr_trace_decreases_cex :
    ACR.reconTrace cexCfg 10 (some 0) = [10, 9] ∧
    ¬ List.Chain' (· ≤ ·) (ACR.reconTrace cexCfg 10 (some 0)) := by
  have hs2 : ACR.reconStep cexCfg 10
      { x := 10, gbuf := 0, mbuf := none, prevpsn := 0, curpsn := 10 }
      = { x := 9, gbuf := 1, mbuf := none, prevpsn := 0, curpsn := 10 } := by
    norm_num [ACR.reconStep, sgdStep, cexCfg, smul_eq_mul]
  have htr : ACR.reconTrace cexCfg 10 (some 0) = [10, 9] := by
    have e1 : ACR.reconTrace cexCfg 10 (some 0)
        = (ACR.reconLoop cexCfg 10 (some 0) (2 + 1)
            { x := 10, gbuf := 0, mbuf := none, prevpsn := 0, curpsn := 0 }).2 := rfl
    rw [e1, reconLoop_some_step cexCfg 10 0
      { x := 10, gbuf := 0, mbuf := none, prevpsn := 0, curpsn := 0 } (1 + 1)
      (by norm_num [cexCfg])]
    simp only [show cexCfg.psnr 10 0 = (10 : ℚ) from rfl]
    rw [hs2, reconLoop_some_early cexCfg 10 0
      { x := 9, gbuf := 1, mbuf := none, prevpsn := 0, curpsn := 10 } 1
      ⟨rfl, by norm_num [cexCfg]⟩]
    simp [show cexCfg.psnr 9 0 = (9 : ℚ) from rfl]
  refine ⟨htr, ?_⟩
  rw [htr]
  intro hch
  exact absurd (List.chain'_cons.mp hch).1 (by norm_num)

/-- With `x_t = None`, the loop is the plain iteration of `reconStep`. -/
lemma reconLoop_none_iterate {V S : Type} [AddCommGroup V] [Module ℚ V] [Sub S]
    (cfg : ReconCfg V S) (y0 : S) :
    ∀ (n : ℕ) (s : RState V),
      ACR.reconLoop cfg y0 none n s = ((ACR.reconStep cfg y0)^[n] s, []) := by
  intro n
  induction n with
  | zero => intro s; rfl
  | succ m ih =>
    intro s
    rw [show ACR.reconLoop cfg y0 none (m + 1) s
        = ACR.reconLoop cfg y0 none m (ACR.reconStep cfg y0 s) from rfl,
      ih, Function.iterate_succ_apply]

/-- One loop iteration adds exactly this iteration's two gradient contributions to
the (never-zeroed) gradient buffer. -/
lemma reconStep_gbuf {V S : Type} [AddCommGroup V] [Module ℚ V] [Sub S]
    (cfg : ReconCfg V S) (y0 : S) (s : RState V) :
    (ACR.reconStep cfg y0 s).gbuf = s.gbuf + gradTerm cfg y0 s.x := by
  simp [ACR.reconStep, gradTerm, add_assoc]

/-- The gradient buffer after `j` iterations is the sum of the gradient
contributions of iterations `0, …, j-1`. -/
lemma reconStep_gbuf_sum {V S : Type} [AddCommGroup V] [Module ℚ V] [Sub S]
    (cfg : ReconCfg V S) (y0 : S) :
    ∀ j : ℕ,
      ((ACR.reconStep cfg y0)^[j] (ACR.reconInit cfg y0)).gbuf
        = ∑ i ∈ Finset.range j,
            gradTerm cfg y0 (((ACR.reconStep cfg y0)^[i] (ACR.reconInit cfg y0)).x) := by
  intro j
  induction j with
  | zero => simp [ACR.reconInit]
  | succ m ih =>
    rw [Function.iterate_succ_apply', reconStep_gbuf, ih, Finset.sum_range_succ]

/-- With zero momentum the SGD step subtracts `lr` times the accumulated buffer. -/
lemma reconStep_x {V S : Type} [AddCommGroup V] [Module ℚ V] [Sub S]
    (cfg : ReconCfg V S) (y0 : S) (s : RState V) (hm : cfg.var_momentum = 0) :
    (ACR.reconStep cfg y0 s).x = s.x - cfg.var_step • (ACR.reconStep cfg y0 s).gbuf := by
  simp [ACR.reconStep, sgdStep, hm]

/-- Claim C8: inside `reconstruction`'s loop the gradient buffer of `x_0` is never
zeroed: after `j` iterations it holds the SUM of the regularizer-backward and
data-consistency gradients of iterations `0, …, j-1` (first conjunct), so that with
the default zero momentum the SGD step of iteration `j` updates the estimate by
`var_step` times the sum of the gradients of iterations `0` through `j` — not
iteration `j`'s gradient alone (second conjunct); and the returned estimate of a
`x_t = None` run is exactly the result of iterating this accumulated step
(third conjunct). -/
theorem recon_grad_accumulation {V S : Type} [AddCommGroup V] [Module ℚ V] [Sub S]
    (cfg : ReconCfg V S) (y0 : S) (j : ℕ) (hm : cfg.var_momentum = 0) :
    ((ACR.reconStep cfg y0)^[j] (ACR.reconInit cfg y0)).gbuf
        = ∑ i ∈ Finset.range j,
            gradTerm cfg y0 (((ACR.reconStep cfg y0)^[i] (ACR.reconInit cfg y0)).x) ∧
    ((ACR.reconStep cfg y0)^[j + 1] (ACR.reconInit cfg y0)).x
        = ((ACR.reconStep cfg y0)^[j] (ACR.reconInit cfg y0)).x
          - cfg.var_step • ∑ i ∈ Finset.range (j + 1),
              gradTerm cfg y0 (((ACR.reconStep cfg y0)^[i] (ACR.reconInit cfg y0)).x) ∧
    ACR.reconstruction cfg y0 none
        = ((ACR.reconStep cfg y0)^[cfg.iterates] (ACR.reconInit cfg y0)).x := by
  refine ⟨reconStep_gbuf_sum cfg y0 j, ?_, ?_⟩
  · rw [Function.iterate_succ_apply', reconStep_x cfg y0 _ hm,
      ← Function.iterate_succ_apply' (ACR.reconStep cfg y0) j,
      reconStep_gbuf_sum cfg y0 (j + 1)]
  · unfold ACR.reconstruction
    rw [reconLoop_none_iterate]

/-- Concrete instantiation of `recon_grad_accumulation` at `c8Cfg` (whose momentum
is 0) and `j = 0`. -/
theorem recon_grad_accumulation_witness :
    ((ACR.reconStep c8Cfg (2 : ℚ))^[0] (ACR.reconInit c8Cfg 2)).gbuf
        = ∑ i ∈ Finset.range 0,
            gradTerm c8Cfg 2 (((ACR.reconStep c8Cfg 2)^[i] (ACR.reconInit c8Cfg 2)).x) ∧
    ((ACR.reconStep c8Cfg (2 : ℚ))^[0 + 1] (ACR.reconInit c8Cfg 2)).x
        = ((ACR.reconStep c8Cfg 2)^[0] (ACR.reconInit c8Cfg 2)).x
          - c8Cfg.var_step • ∑ i ∈ Finset.range (0 + 1),
              gradTerm c8Cfg 2 (((ACR.reconStep c8Cfg 2)^[i] (ACR.reconInit c8Cfg 2)).x) ∧
    ACR.reconstruction c8Cfg 2 none
        = ((ACR.reconStep c8Cfg 2)^[c8Cfg.iterates] (ACR.reconInit c8Cfg 2)).x :=
  recon_grad_accumulation c8Cfg 2 0 rfl

/-! ### SFB -/

/-- The accumulation loop `total_out += …` over `range(n_kernels)` as a sum. -/
lemma foldl_add_range (f : ℕ → ℚ) (n : ℕ) :
    (List.range n).foldl (fun acc i => acc + f i) 0 = ∑ i ∈ Finset.range n, f i := by
  induction n with
  | zero => rfl
  | succ m ih =>
    rw [List.range_succ, List.foldl_append, ih, Finset.sum_range_succ]
    rfl

/-- Claim C10, amended: `SFB` holds `n_kernels` independent bias-free convolution
kernels, each mapping its SINGLE INPUT channel to `n_filters` OUTPUT channels
(not single-output-channel — see `sfb_single_output_channel_cex`); for every input
the forward pass returns a `[batch, 1]` tensor equal to `softplus(penalty)` times
the sum over all kernels of the per-sample sum of absolute values of all entries
(all `n_filters` channels and all pixels) of that kernel's convolution response,
plus `L2Penalty(x)` when the `L2net` option is enabled. -/
theorem sfb_forward_formula {B h w : ℕ} (sp : ℚ → ℚ) (p : SFBParams)
    (W : ℕ → Fin p.n_filters → Fin 1 → Fin 7 → Fin 7 → ℚ) (penalty l2_penalty : ℚ)
    (x : Fin B → FMap 1 h w) (bi : Fin B) (c : Fin 1) :
    SFB.forward sp p W penalty l2_penalty x bi c
      = sp penalty * ∑ ki ∈ Finset.range p.n_kernels,
            ∑ q : Fin p.n_filters × Fin h × Fin w,
              |conv2d 7 (W ki) (fun _ => 0) (x bi) q.1 q.2.1 q.2.2|
        + (if p.L2net then
            sp l2_penalty * ∑ q : Fin 1 × Fin h × Fin w, (x bi q.1 q.2.1 q.2.2) ^ 2
          else 0) := by
  unfold SFB.forward L2net.forward
  rw [foldl_add_range]

set_option maxHeartbeats 2000000 in
/-- Counterexample to claim C10 as stated: the convolution kernels of `SFB` are not
single-output-channel.  With `n_filters = 2`, a kernel bank `sfbW2` whose only
nonzero entries lie in the SECOND output channel (channel index 1) produces the
output 1 on the constant-1 input, while zero weights produce 0 — so the forward
output depends on a second output channel, which a single-output-channel kernel
would not have.  The shipped default is `n_filters = 32` output channels. -/
theorem sfb_single_output_channel_cex :
    SFB.forward (fun u => u) sfbP2 sfbW2 1 0 sfbX1 0 0 = 1 ∧
    SFB.forward (fun u => u) sfbP2 (fun _ _ _ _ _ => 0) 1 0 sfbX1 0 0 = 0 ∧
    SFB.default_parameters.n_filters = 32 := by
  refine ⟨?_, ?_, rfl⟩
  · norm_num [SFB.forward, sfbP2, sfbW2, sfbX1, conv2d, convSum, at0,
      Fintype.sum_prod_type, Fin.sum_univ_succ, List.range_succ]
    show (∑ o : Fin 2, |if (o : ℕ) = 1 then (1 : ℚ) else 0|) = 1
    norm_num [Fin.sum_univ_succ]
  · norm_num [SFB.forward, sfbP2, sfbX1, conv2d, convSum, at0,
      Fintype.sum_prod_type, Fin.sum_univ_succ, List.range_succ]

end LION
